import Mathlib

/-!
Shallow embedding of `src/algorithms/group_dining.py` (class `GroupDiningMatcher`)
and the parts of `src/models/user_profile.py` it uses.

Conventions:
* Python floats are idealised as real numbers (`ℝ`); all numeric literals in the
  source are exact decimal fractions, which Lean real literals represent exactly.
* Python dicts keyed by strings with list values (`self.group_history`,
  a `defaultdict(list)`) are modelled as total functions `String → List _`
  returning `[]` by default, exactly the `defaultdict` read semantics.
* `random.sample(users, k)` is modelled by an oracle `sampler : List UserProfile →
  ℕ → List UserProfile` giving the result of the i-th draw from a population;
  its contract (length `k`, members drawn from the population) appears as
  hypotheses of the theorems that need it.
* Code that can raise `ZeroDivisionError` is modelled with `Option`:
  `calculate_social_compatibility` divides by `len(group)` without a guard, so
  it returns `none` exactly on the empty group, and `calculate_group_score`
  (which calls it) propagates that failure.
-/

namespace GroupDining

/-- `UserProfile` dataclass from `src/models/user_profile.py`. -/
structure UserProfile where
  user_id : String
  age : ℕ
  gender : String
  city : String
  university : String
  degree : String
  graduation_year : ℕ
  dietary_restrictions : String
  budget_range : String
  languages : List String
  alcohol : Bool
  relationship_status : String
  interests : List String
  bio : String
  liked_profiles : List String
  disliked_profiles : List String
  interaction_history : List (String × String)
  deriving DecidableEq

/-- The constraint key type: `(dietary_restrictions, budget_range, city, tuple(sorted(languages)))`. -/
abbrev ConstraintKey := String × String × String × List String

/-- One entry of `self.group_history[user_id]`: member-id list and timestamp. -/
abbrev PlacementRecord := List String × String

/-- `self.group_history`, a `defaultdict(list)` keyed by user id. -/
abbrev GroupHistory := String → List PlacementRecord

/-- `get_constraint_key` (group_dining.py lines 22-29).  `tuple(sorted(...))` is
a stable ascending sort over the linear order on strings; since string order is
antisymmetric the sorted list is unique, and it is modelled by
`List.insertionSort`, which the kernel can evaluate. -/
def get_constraint_key (user : UserProfile) : ConstraintKey :=
  (user.dietary_restrictions, user.budget_range, user.city,
    List.insertionSort (fun a b : String => a ≤ b) user.languages)

/-- Keys of a Python dict built by repeated insertion: first-occurrence order,
no duplicates.  Used to model the `defaultdict` in `filter_compatible_users`. -/
def insertionOrderKeys (ks : List ConstraintKey) : List ConstraintKey :=
  ks.foldl (fun acc k => if k ∈ acc then acc else acc.concat k) []

/-- `filter_compatible_users` (lines 31-40): bucket users by constraint key, then
keep only the buckets with at least 6 members (the minimum viable size is the
literal `6` in line 40, independent of any target group size). -/
def filter_compatible_users (available_users : List UserProfile) :
    List (ConstraintKey × List UserProfile) :=
  ((insertionOrderKeys (available_users.map get_constraint_key)).map
    (fun k => (k, available_users.filter (fun u => get_constraint_key u = k)))).filter
    (fun kv => 6 ≤ kv.2.length)

/-- The id set of a candidate group: `{user.user_id for user in group}`. -/
def group_user_ids (group : List UserProfile) : Finset String :=
  (group.map UserProfile.user_id).toFinset

/-- Greedy loop of `select_non_overlapping_groups` (lines 201-212): walk the
sorted candidate list, keeping a used-id set, and accept a group iff its id set
does not meet the used set. -/
def selectGreedy : List (List UserProfile × β) → Finset String → List (List UserProfile)
  | [], _ => []
  | (group, _) :: rest, used =>
    if group_user_ids group ∩ used = ∅ then
      group :: selectGreedy rest (used ∪ group_user_ids group)
    else
      selectGreedy rest used

/-- The descending-score order used by `scored_groups.sort(key=score, reverse=True)`. -/
def scoreGE {β : Type} [LinearOrder β] (a b : List UserProfile × β) : Prop := b.2 ≤ a.2

instance {β : Type} [LinearOrder β] : DecidableRel (@scoreGE β _) :=
  fun _ _ => inferInstanceAs (Decidable (_ ≤ _))

/-- `select_non_overlapping_groups` (lines 195-213).  The score type is any
linear order (the pipeline instantiates it with `ℝ`); the sort is a stable
sort by score descending, as Python's `list.sort(reverse=True)`.
`target_group_size` is a parameter of the Python function but is never read. -/
def select_non_overlapping_groups {β : Type} [LinearOrder β]
    (scored_groups : List (List UserProfile × β)) (_target_group_size : ℕ) :
    List (List UserProfile) :=
  selectGreedy (List.insertionSort scoreGE scored_groups) ∅

/-- Candidate generation inside `form_dining_groups` (lines 229-241): buckets of
more than 20 users get `min(1000, 10·n)` sampler draws (each guarded by
`len(users) >= target_group_size`); smaller buckets get every size-`k`
combination (`itertools.combinations`, here `sublistsLen`). -/
def candidate_groups (sampler : List UserProfile → ℕ → List UserProfile)
    (target_group_size : ℕ) (users : List UserProfile) : List (List UserProfile) :=
  if 20 < users.length then
    (List.range (min 1000 (users.length * 10))).filterMap
      (fun i => if target_group_size ≤ users.length then some (sampler users i) else none)
  else
    users.sublistsLen target_group_size

/-- `all_interests` accumulator of `calculate_interest_diversity` (lines 44-46):
the interest tags of all members, concatenated in member order. -/
def all_interests (group : List UserProfile) : List String :=
  (group.map UserProfile.interests).flatten

noncomputable section

open Real

/-- `calculate_interest_diversity` (lines 42-66): normalized Shannon entropy of
the multiset of interest tags.  `Counter` iteration is modelled by mapping
`count` over the deduplicated tag list. -/
def calculate_interest_diversity (group : List UserProfile) : ℝ :=
  let all := all_interests group
  if all = [] then 0
  else
    let total_interest_mentions : ℝ := all.length
    let entropy : ℝ :=
      -((all.dedup.map (fun t =>
          let probability : ℝ := (all.count t : ℝ) / total_interest_mentions
          if 0 < probability then probability * Real.logb 2 probability else 0)).sum)
    let max_possible_entropy : ℝ :=
      if 1 < all.dedup.length then Real.logb 2 (all.dedup.length : ℝ) else 1
    if 0 < max_possible_entropy then entropy / max_possible_entropy else 0

/-- `len(set(u1.interests).intersection(set(u2.interests)))` (lines 76-79). -/
def shared_interests (u1 u2 : UserProfile) : ℕ :=
  (u1.interests.toFinset ∩ u2.interests.toFinset).card

/-- The double loop of lines 74-81: number of index pairs `i < j` whose profiles
share at least one interest. -/
def shared_interest_pairs : List UserProfile → ℕ
  | [] => 0
  | u :: rest => (rest.filter (fun v => 1 ≤ shared_interests u v)).length
      + shared_interest_pairs rest

/-- `calculate_conversation_potential` (lines 68-93). -/
def calculate_conversation_potential (group : List UserProfile) : ℝ :=
  let total_possible_pairs : ℝ := (group.length : ℝ) * ((group.length : ℝ) - 1) / 2
  let optimal_shared_ratio : ℝ := 0.7
  let actual_shared_ratio : ℝ :=
    if 0 < total_possible_pairs then (shared_interest_pairs group : ℝ) / total_possible_pairs
    else 0
  if actual_shared_ratio ≤ optimal_shared_ratio then
    actual_shared_ratio / optimal_shared_ratio
  else
    1 - (actual_shared_ratio - optimal_shared_ratio) / (1 - optimal_shared_ratio) * 0.3

/-- `np.std`: the population (divide-by-`n`) standard deviation, numpy's default
(`ddof=0`): square root of the mean of squared deviations from the mean. -/
def np_std (xs : List ℝ) : ℝ :=
  Real.sqrt ((xs.map (fun x => (x - xs.sum / xs.length) ^ 2)).sum / xs.length)

/-- `calculate_demographic_balance` (lines 95-130).  `Counter(...).values()` min
and max are modelled via `count` over the deduplicated value list. -/
def calculate_demographic_balance (group : List UserProfile) : ℝ :=
  if group.length < 2 then 0
  else
    let n : ℝ := group.length
    let ages := group.map (fun u => (u.age : ℝ))
    let age_balance := min (np_std ages / 3) 1
    let genders := group.map UserProfile.gender
    let min_gender_count : ℕ := ((genders.dedup.map (fun g => genders.count g)).min?).getD 0
    let gender_balance := 1 - |(0.5 : ℝ) - (min_gender_count : ℝ) / n| * 2
    let universities := group.map UserProfile.university
    let university_balance := min ((universities.dedup.length : ℝ) / 3) 1
    let statuses := group.map UserProfile.relationship_status
    let distinct_status_count := statuses.dedup.length
    let max_status_count : ℕ := ((statuses.dedup.map (fun s => statuses.count s)).max?).getD 0
    let status_balance : ℝ :=
      if 1 < distinct_status_count then
        1 - ((max_status_count : ℝ) / n - 1 / (distinct_status_count : ℝ))
      else 0.5
    age_balance * 0.3 + gender_balance * 0.3 + university_balance * 0.2 + status_balance * 0.2

/-- `calculate_social_compatibility` (lines 132-155).  The two `/ len(group)`
divisions have no emptiness guard, so the empty group raises
`ZeroDivisionError`: modelled by `none`. -/
def calculate_social_compatibility (group : List UserProfile) : Option ℝ :=
  if group.length = 0 then none
  else some (
    let n : ℝ := group.length
    let alcohol_positive_count : ℝ := (group.filter (fun u => u.alcohol)).length
    let alcohol_ratio := alcohol_positive_count / n
    let alcohol_compatibility : ℝ :=
      if 0.3 ≤ alcohol_ratio ∧ alcohol_ratio ≤ 0.7 then 1 else 0.7
    let single_count : ℝ := (group.filter (fun u => u.relationship_status = "single")).length
    let single_ratio := single_count / n
    let relationship_compatibility : ℝ :=
      if 0.2 ≤ single_ratio ∧ single_ratio ≤ 0.8 then 1 else 0.8
    (alcohol_compatibility + relationship_compatibility) / 2)

/-- `calculate_group_score` (lines 157-178); fails exactly when
`calculate_social_compatibility` does. -/
def calculate_group_score (group : List UserProfile) : Option ℝ :=
  (calculate_social_compatibility group).map (fun social_score =>
    let diversity_score := calculate_interest_diversity group
    let conversation_score := calculate_conversation_potential group
    let balance_score := calculate_demographic_balance group
    let interest_score := diversity_score * 0.6 + conversation_score * 0.4
    interest_score * 0.4 + balance_score * 0.3 + social_score * 0.3)

/-- `apply_fairness_boost` (lines 180-193). -/
def apply_fairness_boost (group_history : GroupHistory) (user : UserProfile)
    (base_score : ℝ) : ℝ :=
  let user_group_history := group_history user.user_id
  if user_group_history.length = 0 then base_score
  else if user_group_history.length < 3 then base_score + 0.15
  else base_score + 0

/-- Fairness loop of lines 249-252: starting from the base score, each member
adds `apply_fairness_boost(user, 0) * 0.1`. -/
def fairness_adjusted_score (group_history : GroupHistory) (group : List UserProfile)
    (base_score : ℝ) : ℝ :=
  group.foldl (fun acc user => acc + apply_fairness_boost group_history user 0 * 0.1)
    base_score

/-- Scoring loop of lines 244-254 over one bucket's candidate list; `none` as
soon as one candidate's score raises. -/
def score_candidates (group_history : GroupHistory) :
    List (List UserProfile) → Option (List (List UserProfile × ℝ))
  | [] => some []
  | group :: rest =>
    match calculate_group_score group, score_candidates group_history rest with
    | some base_score, some scored =>
        some ((group, fairness_adjusted_score group_history group base_score) :: scored)
    | _, _ => none

/-- Bucket loop of lines 225-254: skip buckets smaller than the target size
(lines 226-227), otherwise generate and score candidates, accumulating into one
flat list. -/
def score_buckets (group_history : GroupHistory)
    (sampler : List UserProfile → ℕ → List UserProfile) (target_group_size : ℕ) :
    List (ConstraintKey × List UserProfile) → Option (List (List UserProfile × ℝ))
  | [] => some []
  | (_, users) :: rest =>
    if users.length < target_group_size then
      score_buckets group_history sampler target_group_size rest
    else
      match score_candidates group_history
          (candidate_groups sampler target_group_size users),
          score_buckets group_history sampler target_group_size rest with
      | some scored, some scored_rest => some (scored ++ scored_rest)
      | _, _ => none

/-- `form_dining_groups` (lines 215-267), as a function of the matcher's history
state and the sampling oracle.  The history update of lines 259-265 happens
after `final_groups` is computed and does not affect the returned list; it is
modelled separately by `update_group_history`. -/
def form_dining_groups (group_history : GroupHistory)
    (sampler : List UserProfile → ℕ → List UserProfile)
    (available_users : List UserProfile) (target_group_size : ℕ) :
    Option (List (List UserProfile)) :=
  (score_buckets group_history sampler target_group_size
      (filter_compatible_users available_users)).map
    (fun all_possible_groups =>
      select_non_overlapping_groups all_possible_groups target_group_size)

/-- History update of lines 259-265: append one placement record per member of
each final group. -/
def update_group_history (group_history : GroupHistory)
    (final_groups : List (List UserProfile)) : GroupHistory :=
  final_groups.foldl
    (fun h group =>
      group.foldl
        (fun h' user => fun id =>
          if id = user.user_id then
            h' id ++ [(group.map UserProfile.user_id, "now")]
          else h' id)
        h)
    group_history

end

/-! ### Lemmas about the greedy selection loop -/

/-- Two groups have disjoint participant-id sets. -/
def disjoint_ids (g1 g2 : List UserProfile) : Prop :=
  ∀ u ∈ g1, ∀ v ∈ g2, u.user_id ≠ v.user_id

theorem mem_group_user_ids {s : String} {g : List UserProfile} :
    s ∈ group_user_ids g ↔ ∃ u ∈ g, u.user_id = s := by
  simp [group_user_ids]

theorem selectGreedy_not_mem_used {β : Type} :
    ∀ (l : List (List UserProfile × β)) (used : Finset String),
      ∀ g ∈ selectGreedy l used, ∀ u ∈ g, u.user_id ∉ used
  | [], _, g, hg => by simp [selectGreedy] at hg
  | (group, s) :: rest, used, g, hg => by
    rw [selectGreedy] at hg
    split at hg
    case isTrue hacc =>
      rcases List.mem_cons.1 hg with rfl | hgtail
      · intro u hu hused
        have hid : u.user_id ∈ group_user_ids g := mem_group_user_ids.2 ⟨u, hu, rfl⟩
        have : u.user_id ∈ group_user_ids g ∩ used := Finset.mem_inter.2 ⟨hid, hused⟩
        simp [hacc] at this
      · intro u hu hused
        exact selectGreedy_not_mem_used rest _ g hgtail u hu (Finset.mem_union_left _ hused)
    case isFalse =>
      exact selectGreedy_not_mem_used rest used g hg

theorem selectGreedy_pairwise_disjoint {β : Type} :
    ∀ (l : List (List UserProfile × β)) (used : Finset String),
      (selectGreedy l used).Pairwise disjoint_ids
  | [], _ => by simp [selectGreedy]
  | (group, s) :: rest, used => by
    rw [selectGreedy]
    split
    case isTrue hacc =>
      refine List.Pairwise.cons ?_ (selectGreedy_pairwise_disjoint rest _)
      intro g' hg' u hu v hv heq
      have hv' : v.user_id ∉ used ∪ group_user_ids group :=
        selectGreedy_not_mem_used rest _ g' hg' v hv
      exact hv' (Finset.mem_union_right _ (mem_group_user_ids.2 ⟨u, hu, heq⟩))
    case isFalse =>
      exact selectGreedy_pairwise_disjoint rest used

theorem selectGreedy_mem_fst {β : Type} :
    ∀ (l : List (List UserProfile × β)) (used : Finset String),
      ∀ g ∈ selectGreedy l used, g ∈ l.map Prod.fst
  | [], _, g, hg => by simp [selectGreedy] at hg
  | (group, s) :: rest, used, g, hg => by
    rw [selectGreedy] at hg
    split at hg
    case isTrue hacc =>
      rcases List.mem_cons.1 hg with rfl | hgtail
      · exact List.mem_map.2 ⟨(g, s), List.mem_cons_self _ _, rfl⟩
      · exact List.mem_cons.2 (Or.inr (selectGreedy_mem_fst rest _ g hgtail))
    case isFalse =>
      exact List.mem_cons.2 (Or.inr (selectGreedy_mem_fst rest used g hg))

theorem selectGreedy_maximal {β : Type} :
    ∀ (l : List (List UserProfile × β)) (used : Finset String) (p : List UserProfile × β),
      p ∈ l → p.1 ∉ selectGreedy l used →
      ∃ u ∈ p.1, u.user_id ∈ used ∨
        ∃ g' ∈ selectGreedy l used, u.user_id ∈ group_user_ids g'
  | [], _, p, hp, _ => absurd hp (List.not_mem_nil p)
  | (group, s) :: rest, used, p, hp, hout => by
    rw [selectGreedy] at hout ⊢
    split
    case isTrue hacc =>
      rw [if_pos hacc] at hout
      rcases List.mem_cons.1 hp with rfl | hptail
      · exact absurd (List.mem_cons_self _ _) hout
      · have hout' : p.1 ∉ selectGreedy rest (used ∪ group_user_ids group) :=
          fun h => hout (List.mem_cons.2 (Or.inr h))
        obtain ⟨u, hu, hcase⟩ := selectGreedy_maximal rest _ p hptail hout'
        refine ⟨u, hu, ?_⟩
        rcases hcase with huse | ⟨g', hg', hid⟩
        · rcases Finset.mem_union.1 huse with h | h
          · exact Or.inl h
          · exact Or.inr ⟨group, List.mem_cons_self _ _, h⟩
        · exact Or.inr ⟨g', List.mem_cons.2 (Or.inr hg'), hid⟩
    case isFalse hrej =>
      rw [if_neg hrej] at hout
      rcases List.mem_cons.1 hp with rfl | hptail
      · obtain ⟨x, hx⟩ := Finset.nonempty_iff_ne_empty.2 hrej
        obtain ⟨hxg, hxu⟩ := Finset.mem_inter.1 hx
        obtain ⟨u, hu, hid⟩ := mem_group_user_ids.1 hxg
        exact ⟨u, hu, Or.inl (hid ▸ hxu)⟩
      · exact selectGreedy_maximal rest used p hptail hout

/-! ### Lemmas about the scoring pipeline -/

theorem score_candidates_mem (group_history : GroupHistory)
    {cs : List (List UserProfile)} {scored : List (List UserProfile × ℝ)}
    (h : score_candidates group_history cs = some scored) :
    ∀ p ∈ scored, p.1 ∈ cs := by
  induction cs generalizing scored with
  | nil =>
    simp only [score_candidates, Option.some.injEq] at h
    subst h
    simp
  | cons g rest ih =>
    rw [score_candidates] at h
    rcases hg : calculate_group_score g with _ | base
    · rw [hg] at h; exact absurd h (by simp)
    rcases hr : score_candidates group_history rest with _ | scored'
    · rw [hg, hr] at h; exact absurd h (by simp)
    rw [hg, hr] at h
    simp only [Option.some.injEq] at h
    subst h
    intro p hp
    rcases List.mem_cons.1 hp with rfl | hp'
    · simp
    · exact List.mem_cons.2 (Or.inr (ih hr p hp'))

theorem score_buckets_mem (group_history : GroupHistory)
    (sampler : List UserProfile → ℕ → List UserProfile) (target_group_size : ℕ) :
    ∀ {bl : List (ConstraintKey × List UserProfile)} {scored : List (List UserProfile × ℝ)},
      score_buckets group_history sampler target_group_size bl = some scored →
      ∀ p ∈ scored, ∃ kv ∈ bl, p.1 ∈ candidate_groups sampler target_group_size kv.2 := by
  intro bl
  induction bl with
  | nil =>
    intro scored h
    simp only [score_buckets, Option.some.injEq] at h
    subst h
    simp
  | cons kv rest ih =>
    intro scored h p hp
    obtain ⟨k, users⟩ := kv
    rw [score_buckets] at h
    split at h
    · obtain ⟨kv', hkv', hc⟩ := ih h p hp
      exact ⟨kv', List.mem_cons.2 (Or.inr hkv'), hc⟩
    · rcases hs : score_candidates group_history
          (candidate_groups sampler target_group_size users) with _ | scored₁
      · rw [hs] at h; exact absurd h (by simp)
      rcases hr : score_buckets group_history sampler target_group_size rest with _ | scored₂
      · rw [hs, hr] at h; exact absurd h (by simp)
      rw [hs, hr] at h
      simp only [Option.some.injEq] at h
      subst h
      rcases List.mem_append.1 hp with hp₁ | hp₂
      · exact ⟨(k, users), List.mem_cons_self _ _,
          score_candidates_mem group_history hs p hp₁⟩
      · obtain ⟨kv', hkv', hc⟩ := ih hr p hp₂
        exact ⟨kv', List.mem_cons.2 (Or.inr hkv'), hc⟩

theorem form_dining_groups_inv {group_history : GroupHistory}
    {sampler : List UserProfile → ℕ → List UserProfile}
    {available_users : List UserProfile} {target_group_size : ℕ}
    {gs : List (List UserProfile)}
    (h : form_dining_groups group_history sampler available_users target_group_size = some gs) :
    ∃ scored, score_buckets group_history sampler target_group_size
        (filter_compatible_users available_users) = some scored ∧
      gs = select_non_overlapping_groups scored target_group_size := by
  rcases hs : score_buckets group_history sampler target_group_size
      (filter_compatible_users available_users) with _ | scored
  · rw [form_dining_groups, hs] at h; exact absurd h (by simp)
  · rw [form_dining_groups, hs] at h
    simp only [Option.map_some', Option.some.injEq] at h
    exact ⟨scored, rfl, h.symm⟩

/-- Membership in the list returned by `select_non_overlapping_groups`: every
selected group is one of the scored candidates. -/
theorem select_mem_fst {β : Type} [LinearOrder β]
    {scored : List (List UserProfile × β)} {t : ℕ} {g : List UserProfile}
    (h : g ∈ select_non_overlapping_groups scored t) : ∃ p ∈ scored, p.1 = g := by
  have hmem := selectGreedy_mem_fst (List.insertionSort scoreGE scored) ∅ g h
  obtain ⟨p, hp, hpg⟩ := List.mem_map.1 hmem
  exact ⟨p, (List.perm_insertionSort scoreGE scored).mem_iff.1 hp, hpg⟩

/-- **C1.** Any two distinct groups returned by `select_non_overlapping_groups`
(for any linearly ordered score type), and hence by one `form_dining_groups`
call, have disjoint participant-id sets. -/
theorem select_non_overlapping_groups_disjoint :
    (∀ (β : Type) (_ : LinearOrder β) (scored : List (List UserProfile × β)) (t : ℕ),
      (select_non_overlapping_groups scored t).Pairwise disjoint_ids) ∧
    (∀ (group_history : GroupHistory)
        (sampler : List UserProfile → ℕ → List UserProfile)
        (available_users : List UserProfile) (target_group_size : ℕ)
        (gs : List (List UserProfile)),
      form_dining_groups group_history sampler available_users target_group_size = some gs →
      gs.Pairwise disjoint_ids) := by
  constructor
  · intro β _ scored t
    exact selectGreedy_pairwise_disjoint _ _
  · intro group_history sampler available_users target_group_size gs h
    obtain ⟨scored, _, rfl⟩ := form_dining_groups_inv h
    exact selectGreedy_pairwise_disjoint _ _

/-- **C10.** The greedy selection is a maximal packing: every scored candidate
group that is not selected shares at least one member (by user id) with some
selected group. -/
theorem select_non_overlapping_groups_maximal {β : Type} [LinearOrder β]
    (scored : List (List UserProfile × β)) (t : ℕ)
    (p : List UserProfile × β) (hp : p ∈ scored)
    (hout : p.1 ∉ select_non_overlapping_groups scored t) :
    ∃ g' ∈ select_non_overlapping_groups scored t,
      ∃ u ∈ p.1, ∃ v ∈ g', u.user_id = v.user_id := by
  have hp' : p ∈ List.insertionSort scoreGE scored :=
    (List.perm_insertionSort scoreGE scored).mem_iff.2 hp
  obtain ⟨u, hu, hcase⟩ := selectGreedy_maximal (List.insertionSort scoreGE scored) ∅ p hp' hout
  rcases hcase with huse | ⟨g', hg', hid⟩
  · exact absurd huse (Finset.not_mem_empty _)
  · obtain ⟨v, hv, hvid⟩ := mem_group_user_ids.1 hid
    exact ⟨g', hg', u, hu, v, hv, hvid.symm⟩

/-! ### Lemmas about the constraint partitioner -/

theorem foldl_insert_mem (x : ConstraintKey) :
    ∀ (ks : List ConstraintKey) (acc : List ConstraintKey),
      x ∈ ks.foldl (fun acc k => if k ∈ acc then acc else acc.concat k) acc ↔
        x ∈ acc ∨ x ∈ ks
  | [], acc => by simp
  | k :: ks, acc => by
    rw [List.foldl_cons, foldl_insert_mem x ks]
    by_cases hk : k ∈ acc
    · simp only [if_pos hk, List.mem_cons]
      constructor
      · rintro (h | h)
        · exact Or.inl h
        · exact Or.inr (Or.inr h)
      · rintro (h | rfl | h)
        · exact Or.inl h
        · exact Or.inl hk
        · exact Or.inr h
    · simp only [if_neg hk, List.concat_eq_append, List.mem_append,
        List.mem_singleton, List.mem_cons]
      tauto

theorem foldl_insert_nodup :
    ∀ (ks : List ConstraintKey) (acc : List ConstraintKey), acc.Nodup →
      (ks.foldl (fun acc k => if k ∈ acc then acc else acc.concat k) acc).Nodup
  | [], _, h => h
  | k :: ks, acc, h => by
    rw [List.foldl_cons]
    by_cases hk : k ∈ acc
    · rw [if_pos hk]
      exact foldl_insert_nodup ks acc h
    · rw [if_neg hk]
      refine foldl_insert_nodup ks _ ?_
      simp [List.concat_eq_append, List.nodup_append, h, hk]

theorem insertionOrderKeys_mem {x : ConstraintKey} {ks : List ConstraintKey} :
    x ∈ insertionOrderKeys ks ↔ x ∈ ks := by
  rw [insertionOrderKeys, foldl_insert_mem]
  simp

theorem insertionOrderKeys_nodup (ks : List ConstraintKey) :
    (insertionOrderKeys ks).Nodup :=
  foldl_insert_nodup ks [] List.nodup_nil

theorem filter_compatible_users_mem
    {available_users : List UserProfile} {k : ConstraintKey} {b : List UserProfile} :
    (k, b) ∈ filter_compatible_users available_users ↔
      6 ≤ b.length ∧ b = available_users.filter (fun u => get_constraint_key u = k) := by
  rw [filter_compatible_users]
  constructor
  · intro h
    obtain ⟨hmem, hlen⟩ := List.mem_filter.1 h
    obtain ⟨k', _, heq⟩ := List.mem_map.1 hmem
    injection heq with hk hb
    subst hk
    subst hb
    exact ⟨by simpa using hlen, rfl⟩
  · rintro ⟨hlen, rfl⟩
    refine List.mem_filter.2 ⟨?_, by simpa using hlen⟩
    refine List.mem_map.2 ⟨k, ?_, rfl⟩
    refine insertionOrderKeys_mem.2 ?_
    have hne : available_users.filter (fun u => get_constraint_key u = k) ≠ [] := by
      intro hnil
      rw [hnil] at hlen
      simp at hlen
    obtain ⟨u, hu⟩ := List.exists_mem_of_ne_nil _ hne
    obtain ⟨humem, hukey⟩ := List.mem_filter.1 hu
    exact List.mem_map.2 ⟨u, humem, by simpa using hukey⟩

theorem filter_compatible_users_key
    {available_users : List UserProfile} {k : ConstraintKey} {b : List UserProfile}
    (h : (k, b) ∈ filter_compatible_users available_users) :
    ∀ u ∈ b, get_constraint_key u = k := by
  obtain ⟨-, rfl⟩ := filter_compatible_users_mem.1 h
  intro u hu
  simpa using (List.mem_filter.1 hu).2

theorem candidate_groups_subset
    {sampler : List UserProfile → ℕ → List UserProfile} {target_group_size : ℕ}
    {users : List UserProfile}
    (hsampler : ∀ us i, ∀ u ∈ sampler us i, u ∈ us) :
    ∀ g ∈ candidate_groups sampler target_group_size users, ∀ u ∈ g, u ∈ users := by
  intro g hg u hu
  rw [candidate_groups] at hg
  split at hg
  · obtain ⟨i, -, hi⟩ := List.mem_filterMap.1 hg
    split at hi
    · cases hi
      exact hsampler users i u hu
    · cases hi
  · exact (List.mem_sublistsLen.1 hg).1.subset hu

/-- **C2.** Every group returned by `form_dining_groups` is
constraint-homogeneous: any two members have the same constraint key.
The sampler hypothesis is the contract of `random.sample`: every drawn member
comes from the population it was drawn from. -/
theorem form_dining_groups_constraint_homogeneous
    (group_history : GroupHistory) (sampler : List UserProfile → ℕ → List UserProfile)
    (available_users : List UserProfile) (target_group_size : ℕ)
    (gs : List (List UserProfile))
    (hsampler : ∀ us i, ∀ u ∈ sampler us i, u ∈ us)
    (h : form_dining_groups group_history sampler available_users target_group_size = some gs) :
    ∀ g ∈ gs, ∀ u ∈ g, ∀ v ∈ g, get_constraint_key u = get_constraint_key v := by
  intro g hg u hu v hv
  obtain ⟨scored, hscored, rfl⟩ := form_dining_groups_inv h
  obtain ⟨p, hp, rfl⟩ := select_mem_fst hg
  obtain ⟨⟨k, users⟩, hkv, hcand⟩ :=
    score_buckets_mem group_history sampler target_group_size hscored p hp
  have hsub := candidate_groups_subset hsampler p.1 hcand
  have hkey := filter_compatible_users_key hkv
  rw [hkey u (hsub u hu), hkey v (hsub v hv)]

/-! ### Concrete profiles for witnesses and counterexamples -/

/-- Helper building a concrete profile; fields not relevant to a given
scenario get fixed defaults. -/
def mkUser (id gender status : String) (age : ℕ) (alcohol : Bool)
    (interests : List String) : UserProfile :=
  ⟨id, age, gender, "Mumbai", "IIT Bombay", "BTech", 2025, "none", "500-800",
    ["en"], alcohol, status, interests, "", [], [], []⟩

/-- The all-default history: no user has any prior placement. -/
def hist0 : GroupHistory := fun _ => []

/-- A trivial sampling oracle. -/
def sampler0 : List UserProfile → ℕ → List UserProfile := fun _ _ => []

theorem select_non_overlapping_groups_disjoint_witness :
    (select_non_overlapping_groups
        [([mkUser "alice" "f" "single" 20 false []], (5 : ℕ)),
         ([mkUser "bob" "m" "single" 21 true []], (3 : ℕ))] 6).Pairwise disjoint_ids ∧
    ([] : List (List UserProfile)).Pairwise disjoint_ids :=
  ⟨select_non_overlapping_groups_disjoint.1 ℕ inferInstance _ 6,
   select_non_overlapping_groups_disjoint.2 hist0 sampler0 [] 6 [] rfl⟩

theorem select_non_overlapping_groups_maximal_witness :
    ∃ g' ∈ select_non_overlapping_groups
        [([mkUser "alice" "f" "single" 20 false []], (5 : ℕ)),
         ([mkUser "alice" "f" "single" 30 false []], (3 : ℕ))] 6,
      ∃ u ∈ [mkUser "alice" "f" "single" 30 false []], ∃ v ∈ g',
        u.user_id = v.user_id :=
  select_non_overlapping_groups_maximal
    [([mkUser "alice" "f" "single" 20 false []], (5 : ℕ)),
     ([mkUser "alice" "f" "single" 30 false []], (3 : ℕ))] 6
    ([mkUser "alice" "f" "single" 30 false []], (3 : ℕ))
    (by decide) (by decide)

/-- Six users sharing one constraint key. -/
def sixSameKey : List UserProfile :=
  ["u1", "u2", "u3", "u4", "u5", "u6"].map (fun id => mkUser id "f" "single" 20 false [])



/-! ### C3: the constraint partitioner and its hardwired minimum size -/

/-- Five users sharing one constraint key. -/
def fiveSameKey : List UserProfile :=
  ["v1", "v2", "v3", "v4", "v5"].map (fun id => mkUser id "f" "single" 20 false [])

/-- **C3 counterexample.**  With target size `t = 4` the claim says a key with
5 ≥ 4 participants is retained, but `filter_compatible_users` compares against
the literal `6`, not the target size: the bucket is dropped, and the whole
`form_dining_groups` run with `t = 4` forms no group from these five users. -/
theorem filter_compatible_users_target_counterexample :
    filter_compatible_users fiveSameKey = [] ∧
    4 ≤ (fiveSameKey.filter (fun u =>
      get_constraint_key u = ("none", "500-800", "Mumbai", ["en"]))).length ∧
    form_dining_groups hist0 sampler0 fiveSameKey 4 = some [] := by
  refine ⟨by decide, by decide, by decide⟩

/-- **C3 (amended).**  The partitioning step retains exactly the constraint keys
with at least `6` participants — independent of any target group size — each
retained key maps to the list of participants having that key, the retained
keys are pairwise distinct, and every participant whose key has at least 6
holders appears in exactly one retained bucket. -/
theorem filter_compatible_users_spec (available_users : List UserProfile) :
    (∀ k b, (k, b) ∈ filter_compatible_users available_users ↔
        6 ≤ (available_users.filter (fun u => get_constraint_key u = k)).length ∧
        b = available_users.filter (fun u => get_constraint_key u = k)) ∧
    ((filter_compatible_users available_users).map Prod.fst).Nodup ∧
    (∀ u ∈ available_users,
        6 ≤ (available_users.filter (fun v =>
          get_constraint_key v = get_constraint_key u)).length →
        ∃ b, (get_constraint_key u, b) ∈ filter_compatible_users available_users ∧
          u ∈ b ∧
          ∀ k' b', (k', b') ∈ filter_compatible_users available_users → u ∈ b' →
            k' = get_constraint_key u ∧ b' = b) := by
  refine ⟨?_, ?_, ?_⟩
  · intro k b
    rw [filter_compatible_users_mem]
    constructor
    · rintro ⟨hlen, rfl⟩
      exact ⟨hlen, rfl⟩
    · rintro ⟨hlen, rfl⟩
      exact ⟨hlen, rfl⟩
  · have hsub : ((filter_compatible_users available_users).map Prod.fst).Sublist
        (insertionOrderKeys (available_users.map get_constraint_key)) := by
      have h1 : (filter_compatible_users available_users).Sublist
          ((insertionOrderKeys (available_users.map get_constraint_key)).map
            (fun k => (k, available_users.filter (fun u => get_constraint_key u = k)))) :=
        List.filter_sublist _
      have h2 := h1.map Prod.fst
      rw [List.map_map] at h2
      have hid : (Prod.fst ∘ fun k : ConstraintKey =>
          (k, available_users.filter (fun u => get_constraint_key u = k))) = id := rfl
      rwa [hid, List.map_id] at h2
    exact (insertionOrderKeys_nodup _).sublist hsub
  · intro u hu hcount
    refine ⟨available_users.filter (fun v => get_constraint_key v = get_constraint_key u),
      filter_compatible_users_mem.2 ⟨hcount, rfl⟩, List.mem_filter.2 ⟨hu, by simp⟩, ?_⟩
    intro k' b' hk' hub'
    obtain ⟨-, rfl⟩ := filter_compatible_users_mem.1 hk'
    have := (List.mem_filter.1 hub').2
    simp only [decide_eq_true_eq] at this
    exact ⟨this.symm, by rw [this]⟩

theorem filter_compatible_users_spec_witness :
    ∃ b, (get_constraint_key (mkUser "u1" "f" "single" 20 false []), b) ∈
        filter_compatible_users sixSameKey ∧
      mkUser "u1" "f" "single" 20 false [] ∈ b ∧
      ∀ k' b', (k', b') ∈ filter_compatible_users sixSameKey →
        mkUser "u1" "f" "single" 20 false [] ∈ b' →
        k' = get_constraint_key (mkUser "u1" "f" "single" 20 false []) ∧ b' = b :=
  (filter_compatible_users_spec sixSameKey).2.2
    (mkUser "u1" "f" "single" 20 false []) (by decide) (by decide)

/-! ### C5: the fairness boost policy -/

theorem foldl_add_eq_add_sum (f : UserProfile → ℝ) :
    ∀ (l : List UserProfile) (b : ℝ),
      l.foldl (fun acc u => acc + f u) b = b + (l.map f).sum
  | [], b => by simp
  | u :: l, b => by
    rw [List.foldl_cons, foldl_add_eq_add_sum f l (b + f u)]
    simp only [List.map_cons, List.sum_cons]
    ring

/-- **C5.**  The fairness adjuster returns the base score unchanged for 0 prior
placements, adds a flat `0.15` for 1 or 2, and returns the base unchanged for
3 or more; in the pipeline each member contributes `boost * 0.1` additively to
the group score, and members with 0 and with 4 prior placements both contribute
zero. -/
theorem apply_fairness_boost_policy (group_history : GroupHistory)
    (user : UserProfile) (base_score : ℝ) :
    ((group_history user.user_id).length = 0 →
        apply_fairness_boost group_history user base_score = base_score) ∧
    ((group_history user.user_id).length = 1 ∨ (group_history user.user_id).length = 2 →
        apply_fairness_boost group_history user base_score = base_score + 0.15) ∧
    (3 ≤ (group_history user.user_id).length →
        apply_fairness_boost group_history user base_score = base_score) ∧
    (∀ group, fairness_adjusted_score group_history group base_score =
        base_score +
          (group.map (fun u => apply_fairness_boost group_history u 0 * 0.1)).sum) ∧
    ((group_history user.user_id).length = 0 ∨ (group_history user.user_id).length = 4 →
        apply_fairness_boost group_history user 0 * 0.1 = 0) := by
  refine ⟨?_, ?_, ?_, ?_, ?_⟩
  · intro h
    rw [apply_fairness_boost]
    simp [h]
  · rintro (h | h) <;>
    · rw [apply_fairness_boost]
      simp [h]
  · intro h
    rw [apply_fairness_boost]
    have h0 : ¬(group_history user.user_id).length = 0 := by omega
    have h3 : ¬(group_history user.user_id).length < 3 := by omega
    simp [h0, h3]
  · intro group
    rw [fairness_adjusted_score, foldl_add_eq_add_sum]
  · rintro (h | h)
    · rw [apply_fairness_boost]
      simp [h]
    · rw [apply_fairness_boost]
      have h0 : ¬(group_history user.user_id).length = 0 := by omega
      have h3 : ¬(group_history user.user_id).length < 3 := by omega
      simp [h0, h3]

/-- A history where `alice` has 1 prior placement, `dave` has 4, others none. -/
def histAliceDave : GroupHistory := fun id =>
  if id = "alice" then [(["alice"], "now")]
  else if id = "dave" then List.replicate 4 (["dave"], "now")
  else []

theorem apply_fairness_boost_policy_witness :
    apply_fairness_boost histAliceDave (mkUser "alice" "f" "single" 20 false []) 0.5
        = 0.5 + 0.15 ∧
    apply_fairness_boost histAliceDave (mkUser "dave" "m" "single" 22 true []) 0 * 0.1 = 0 ∧
    apply_fairness_boost histAliceDave (mkUser "zoe" "f" "single" 23 false []) 0 * 0.1 = 0 :=
  ⟨(apply_fairness_boost_policy histAliceDave (mkUser "alice" "f" "single" 20 false [])
      0.5).2.1 (Or.inl (by decide)),
   (apply_fairness_boost_policy histAliceDave (mkUser "dave" "m" "single" 22 true [])
      0).2.2.2.2 (Or.inr (by decide)),
   (apply_fairness_boost_policy histAliceDave (mkUser "zoe" "f" "single" 23 false [])
      0).2.2.2.2 (Or.inl (by decide))⟩

/-! ### C6: candidate generation counts -/

/-- A 21-participant bucket. -/
def users21 : List UserProfile := List.replicate 21 (mkUser "x" "f" "single" 20 false [])

/-- **C6 counterexample.**  For a bucket of 21 (> 20) participants and target
size 22, the claim predicts `min(1000, 210) = 210` sampled candidates, but the
per-draw guard `len(users) >= target_group_size` never holds, so the generator
produces none. -/
theorem candidate_groups_counterexample :
    candidate_groups sampler0 22 users21 = [] ∧
    20 < users21.length ∧
    min 1000 (users21.length * 10) = 210 := by
  refine ⟨by decide, by decide, by decide⟩

/-- **C6 (amended).**  For a bucket of more than 20 participants and a target
size `k` not exceeding the bucket size, the generator produces exactly
`min(1000, 10 · bucket_size)` candidates, each of size exactly `k` and drawn
from the bucket without replacement within a draw (a `Subperm` of the bucket:
distinct positions, so `k` position-distinct members); for buckets of at most
20 participants it produces exactly the size-`k` combinations.  The sampler
hypothesis is the contract of `random.sample(users, k)`: each draw returns `k`
elements taken from distinct positions of the population. -/
theorem candidate_groups_counts (sampler : List UserProfile → ℕ → List UserProfile)
    (k : ℕ) (users : List UserProfile)
    (hsampler : ∀ i, (sampler users i).length = k ∧ (sampler users i).Subperm users) :
    (20 < users.length → k ≤ users.length →
      (candidate_groups sampler k users).length = min 1000 (users.length * 10) ∧
      ∀ g ∈ candidate_groups sampler k users, g.length = k ∧ g.Subperm users) ∧
    (users.length ≤ 20 →
      ∀ g, g ∈ candidate_groups sampler k users ↔ g.Sublist users ∧ g.length = k) := by
  constructor
  · intro h20 hk
    have hfun : (fun i => if k ≤ users.length then some (sampler users i) else none)
        = some ∘ sampler users := by
      funext i
      rw [Function.comp_apply, if_pos hk]
    rw [candidate_groups, if_pos h20, hfun]
    constructor
    · rw [List.filterMap_eq_map, List.length_map, List.length_range]
    · intro g hg
      obtain ⟨i, -, hi⟩ := List.mem_filterMap.1 hg
      cases hi
      exact ⟨(hsampler i).1, (hsampler i).2⟩
  · intro h20 g
    rw [candidate_groups, if_neg (by omega), List.mem_sublistsLen]

theorem candidate_groups_counts_witness :
    (candidate_groups (fun us _ => us.take 6) 6 users21).length
        = min 1000 (users21.length * 10) ∧
    ∀ g ∈ candidate_groups (fun us _ => us.take 6) 6 users21,
      g.length = 6 ∧ g.Subperm users21 :=
  (candidate_groups_counts (fun us _ => us.take 6) 6 users21
    (fun _ => ⟨(by decide : (users21.take 6).length = 6),
      (List.take_sublist 6 users21).subperm⟩)).1 (by decide) (by decide)

/-! ### C7: interest diversity on homogeneous groups -/

theorem mem_all_interests {x : String} {group : List UserProfile} :
    x ∈ all_interests group ↔ ∃ u ∈ group, x ∈ u.interests := by
  simp [all_interests]

/-- If every interest tag mentioned anywhere in the group is the same single
tag, the entropy is that of a one-category distribution: zero. -/
theorem calculate_interest_diversity_of_all_eq {group : List UserProfile} (a : String)
    (ha : ∀ x ∈ all_interests group, x = a) :
    calculate_interest_diversity group = 0 := by
  rcases hall : all_interests group with _ | ⟨b, rest⟩
  · rw [calculate_interest_diversity, hall]
    simp
  · have hane : all_interests group ≠ [] := by rw [hall]; simp
    have hamem : a ∈ all_interests group := by
      have hb : b ∈ all_interests group := by rw [hall]; exact List.mem_cons_self _ _
      have := ha b hb
      rwa [this] at hb
    have hdedup : (all_interests group).dedup = [a] := by
      have hnd := List.nodup_dedup (all_interests group)
      have hmem : ∀ x ∈ (all_interests group).dedup, x = a :=
        fun x hx => ha x (List.mem_dedup.1 hx)
      have hadedup : a ∈ (all_interests group).dedup := List.mem_dedup.2 hamem
      rcases hd : (all_interests group).dedup with _ | ⟨c, cs⟩
      · rw [hd] at hadedup
        cases hadedup
      · rw [hd] at hmem hnd hadedup
        have hc : c = a := hmem c (List.mem_cons_self _ _)
        have hcs : cs = [] := by
          rcases cs with _ | ⟨d, ds⟩
          · rfl
          · have hd' : d = a := hmem d (List.mem_cons.2 (Or.inr (List.mem_cons_self _ _)))
            exact absurd (by rw [hc, hd'] : c = d)
              (fun hcd => (List.nodup_cons.1 hnd).1 (hcd ▸ List.mem_cons_self _ _))
        rw [hc, hcs]
    have hcount : (all_interests group).count a = (all_interests group).length :=
      List.count_eq_length.2 (fun b hb => (ha b hb).symm)
    have hNpos : (0 : ℝ) < ((all_interests group).length : ℝ) := by
      have : 0 < (all_interests group).length := List.length_pos.2 hane
      exact_mod_cast this
    rw [calculate_interest_diversity]
    rw [if_neg hane]
    rw [hdedup]
    simp only [List.map_cons, List.map_nil, List.sum_cons, List.sum_nil, List.length_cons,
      List.length_nil, hcount]
    rw [div_self (ne_of_gt hNpos)]
    rw [if_pos (by norm_num : (0 : ℝ) < 1)]
    rw [Real.logb_one]
    norm_num

/-- **C7 counterexample.**  A (non-empty) group whose single member has the
interest list `["a", "b"]` — identical across all members — has diversity `1`,
not `0`: the entropy is over the tag multiset, not over members. -/
theorem calculate_interest_diversity_counterexample :
    calculate_interest_diversity [mkUser "carol" "f" "single" 20 false ["a", "b"]] = 1 ∧
    (1 : ℝ) ≠ 0 := by
  constructor
  · have h1 : all_interests [mkUser "carol" "f" "single" 20 false ["a", "b"]]
        = ["a", "b"] := by decide
    have hd : (["a", "b"] : List String).dedup = ["a", "b"] := by decide
    have hca : (["a", "b"] : List String).count "a" = 1 := by decide
    have hcb : (["a", "b"] : List String).count "b" = 1 := by decide
    rw [calculate_interest_diversity, h1, if_neg (by decide : ¬(["a", "b"] : List String) = [])]
    rw [hd]
    simp only [List.map_cons, List.map_nil, List.sum_cons, List.sum_nil, hca, hcb,
      List.length_cons, List.length_nil]
    norm_num
    have hhalf : ((1 : ℝ) / 2) = (2 : ℝ)⁻¹ := by norm_num
    rw [hhalf, Real.logb_inv, Real.logb_self_eq_one (by norm_num : (1 : ℝ) < 2)]
    norm_num
  · norm_num

/-- **C7 (amended).**  For every non-empty group in which every member has an
identical interest list consisting of a single (possibly repeated) tag,
`calculate_interest_diversity` returns 0.  (When the shared list has two or
more distinct tags the entropy is positive — see the counterexample.) -/
theorem calculate_interest_diversity_single_tag
    (group : List UserProfile) (ts : List String) (a : String)
    (_hne : group ≠ []) (hts : ∀ u ∈ group, u.interests = ts) (ha : ∀ x ∈ ts, x = a) :
    calculate_interest_diversity group = 0 := by
  refine calculate_interest_diversity_of_all_eq a ?_
  intro x hx
  obtain ⟨u, hu, hxu⟩ := mem_all_interests.1 hx
  rw [hts u hu] at hxu
  exact ha x hxu

theorem calculate_interest_diversity_single_tag_witness :
    calculate_interest_diversity
      [mkUser "dan" "m" "single" 20 false ["x", "x"],
       mkUser "eli" "m" "single" 21 false ["x", "x"]] = 0 :=
  calculate_interest_diversity_single_tag _ ["x", "x"] "x"
    (by decide) (by decide) (by decide)

/-! ### C9: degenerate groups (size < 2) -/

/-- **C9 counterexample.**  On the empty group, `calculate_social_compatibility`
divides by `len(group) = 0` (modelled by `none`), so `calculate_group_score`
fails too; and a one-member group with two distinct interest tags has interest
diversity `1`, not the claimed default `0.0`. -/
theorem degenerate_group_counterexample :
    calculate_social_compatibility [] = none ∧
    calculate_group_score [] = none ∧
    calculate_interest_diversity [mkUser "fay" "f" "single" 20 false ["f", "g"]] = 1 := by
  refine ⟨rfl, rfl, ?_⟩
  have h1 : all_interests [mkUser "fay" "f" "single" 20 false ["f", "g"]]
      = ["f", "g"] := by decide
  have hd : (["f", "g"] : List String).dedup = ["f", "g"] := by decide
  have hcf : (["f", "g"] : List String).count "f" = 1 := by decide
  have hcg : (["f", "g"] : List String).count "g" = 1 := by decide
  rw [calculate_interest_diversity, h1, if_neg (by decide : ¬(["f", "g"] : List String) = [])]
  rw [hd]
  simp only [List.map_cons, List.map_nil, List.sum_cons, List.sum_nil, hcf, hcg,
    List.length_cons, List.length_nil]
  norm_num
  have hhalf : ((1 : ℝ) / 2) = (2 : ℝ)⁻¹ := by norm_num
  rw [hhalf, Real.logb_inv, Real.logb_self_eq_one (by norm_num : (1 : ℝ) < 2)]
  norm_num

/-- **C9 (amended).**  On the empty group, interest diversity, conversation
potential and demographic balance return the default `0.0`, but social
compatibility (and hence `calculate_group_score`) fails with a division by
zero.  On every one-member group all sub-scores are defined without division
by zero: conversation potential `0.0` via the zero-pairs guard, demographic
balance `0.0`, social compatibility `0.75`, and the total score is defined;
interest diversity is `0.0` when the member's tags name at most one distinct
interest (in general it is the entropy of the member's own tag multiset). -/
theorem degenerate_group_subscores :
    (calculate_interest_diversity [] = 0 ∧ calculate_conversation_potential [] = 0 ∧
     calculate_demographic_balance [] = 0 ∧ calculate_social_compatibility [] = none ∧
     calculate_group_score [] = none) ∧
    (∀ u : UserProfile,
      calculate_conversation_potential [u] = 0 ∧
      calculate_demographic_balance [u] = 0 ∧
      calculate_social_compatibility [u] = some 0.75 ∧
      (∃ s, calculate_group_score [u] = some s) ∧
      (∀ a, (∀ x ∈ u.interests, x = a) → calculate_interest_diversity [u] = 0)) := by
  constructor
  · refine ⟨?_, ?_, ?_, rfl, rfl⟩
    · rw [calculate_interest_diversity]
      simp [all_interests]
    · rw [calculate_conversation_potential]
      norm_num
    · rw [calculate_demographic_balance]
      norm_num
  · intro u
    have hsocial : calculate_social_compatibility [u] = some 0.75 := by
      rw [calculate_social_compatibility, if_neg (by simp)]
      have halc : ¬((0.3 : ℝ) ≤ (([u].filter (fun v => v.alcohol)).length : ℝ) / ((1 : ℕ) : ℝ) ∧
          ((([u].filter (fun v => v.alcohol)).length : ℝ) / ((1 : ℕ) : ℝ)) ≤ 0.7) := by
        rcases Bool.eq_false_or_eq_true u.alcohol with hb | hb <;>
          simp [List.filter, hb] <;> norm_num
      have hsingle : ¬((0.2 : ℝ) ≤
          (([u].filter (fun v => v.relationship_status = "single")).length : ℝ) / ((1 : ℕ) : ℝ) ∧
          ((([u].filter (fun v => v.relationship_status = "single")).length : ℝ) /
            ((1 : ℕ) : ℝ)) ≤ 0.8) := by
        by_cases hs : u.relationship_status = "single" <;>
          simp [List.filter, hs] <;> norm_num
      simp only [List.length_cons, List.length_nil, Nat.cast_one]
      rw [if_neg (by simpa using halc), if_neg (by simpa using hsingle)]
      norm_num
    refine ⟨?_, ?_, hsocial, ?_, ?_⟩
    · rw [calculate_conversation_potential]
      norm_num
    · rw [calculate_demographic_balance]
      norm_num
    · rw [calculate_group_score, hsocial]
      exact ⟨_, rfl⟩
    · intro a ha
      refine calculate_interest_diversity_of_all_eq a ?_
      intro x hx
      obtain ⟨v, hv, hxv⟩ := mem_all_interests.1 hx
      rcases List.mem_singleton.1 hv with rfl
      exact ha x hxv

theorem degenerate_group_subscores_witness :
    calculate_social_compatibility [mkUser "gil" "m" "married" 30 true ["food"]] = some 0.75 ∧
    calculate_interest_diversity [mkUser "gil" "m" "married" 30 true ["food"]] = 0 :=
  ⟨(degenerate_group_subscores.2 (mkUser "gil" "m" "married" 30 true ["food"])).2.2.1,
   (degenerate_group_subscores.2 (mkUser "gil" "m" "married" 30 true ["food"])).2.2.2.2
     "food" (by decide)⟩

/-! ### C8: the age sub-factor of demographic balance -/

noncomputable section

/-- The claim's reading of "sample standard deviation": the Bessel-corrected
estimator, dividing the summed squared deviations by `n - 1`.  Written from the
claim's words, for comparison with the source's `np.std` (which divides
by `n`). -/
def sample_std (xs : List ℝ) : ℝ :=
  Real.sqrt ((xs.map (fun x => (x - xs.sum / xs.length) ^ 2)).sum / ((xs.length : ℝ) - 1))

/-- `calculate_demographic_balance` exactly as claim C8 words its age term:
identical to the source function except that the age spread uses the
Bessel-corrected sample standard deviation. -/
def demographic_balance_sample_std (group : List UserProfile) : ℝ :=
  if group.length < 2 then 0
  else
    let n : ℝ := group.length
    let ages := group.map (fun u => (u.age : ℝ))
    let age_balance := min (sample_std ages / 3) 1
    let genders := group.map UserProfile.gender
    let min_gender_count : ℕ := ((genders.dedup.map (fun g => genders.count g)).min?).getD 0
    let gender_balance := 1 - |(0.5 : ℝ) - (min_gender_count : ℝ) / n| * 2
    let universities := group.map UserProfile.university
    let university_balance := min ((universities.dedup.length : ℝ) / 3) 1
    let statuses := group.map UserProfile.relationship_status
    let distinct_status_count := statuses.dedup.length
    let max_status_count : ℕ := ((statuses.dedup.map (fun s => statuses.count s)).max?).getD 0
    let status_balance : ℝ :=
      if 1 < distinct_status_count then
        1 - ((max_status_count : ℝ) / n - 1 / (distinct_status_count : ℝ))
      else 0.5
    age_balance * 0.3 + gender_balance * 0.3 + university_balance * 0.2 + status_balance * 0.2

end

/-- Two members aged 20 and 22 with identical gender, university and status. -/
def pairAges : List UserProfile :=
  [mkUser "pam" "f" "single" 20 false [], mkUser "quincy" "f" "single" 22 false []]

theorem pairAges_ages : pairAges.map (fun u => (u.age : ℝ)) = [(20 : ℝ), 22] := by
  have h : pairAges.map (fun u => u.age) = [20, 22] := by decide
  have hcomp : pairAges.map (fun u => (u.age : ℝ))
      = (pairAges.map (fun u => u.age)).map (fun n : ℕ => (n : ℝ)) := by
    rw [List.map_map]
    rfl
  rw [hcomp, h]
  norm_num

theorem np_std_pairAges : np_std (pairAges.map (fun u => (u.age : ℝ))) = 1 := by
  rw [pairAges_ages, np_std]
  have h : (([(20 : ℝ), 22].map
      (fun x => (x - [(20 : ℝ), 22].sum / [(20 : ℝ), 22].length) ^ 2)).sum
        / ([(20 : ℝ), 22].length : ℝ)) = 1 := by
    simp only [List.map_cons, List.map_nil, List.sum_cons, List.sum_nil, List.length_cons,
      List.length_nil]
    norm_num
  rw [h, Real.sqrt_one]

theorem sample_std_pairAges : sample_std (pairAges.map (fun u => (u.age : ℝ)))
    = Real.sqrt 2 := by
  rw [pairAges_ages, sample_std]
  have h : (([(20 : ℝ), 22].map
      (fun x => (x - [(20 : ℝ), 22].sum / [(20 : ℝ), 22].length) ^ 2)).sum
        / (([(20 : ℝ), 22].length : ℝ) - 1)) = 2 := by
    simp only [List.map_cons, List.map_nil, List.sum_cons, List.sum_nil, List.length_cons,
      List.length_nil]
    norm_num
  rw [h]

theorem calculate_demographic_balance_pairAges :
    calculate_demographic_balance pairAges = 4 / 15 := by
  rw [calculate_demographic_balance, if_neg (by decide : ¬pairAges.length < 2)]
  have hmin : (((pairAges.map UserProfile.gender).dedup.map
      (fun g => (pairAges.map UserProfile.gender).count g)).min?).getD 0 = 2 := by decide
  have huni : (pairAges.map UserProfile.university).dedup.length = 1 := by decide
  have hstat : (pairAges.map UserProfile.relationship_status).dedup.length = 1 := by decide
  have hlen : (pairAges.length : ℝ) = 2 := by norm_num [pairAges]
  simp only [np_std_pairAges, hmin, huni, hstat, hlen]
  rw [if_neg (by norm_num)]
  have habs : |(0.5 : ℝ) - (2 : ℕ) / (2 : ℝ)| = 0.5 := by
    rw [show (0.5 : ℝ) - (2 : ℕ) / (2 : ℝ) = -(0.5 : ℝ) by norm_num, abs_neg,
      abs_of_nonneg (by norm_num)]
  rw [habs]
  rw [min_eq_left (by norm_num : (1 : ℝ) / 3 ≤ 1), min_eq_left (by norm_num : ((1 : ℕ) : ℝ) / 3 ≤ 1)]
  norm_num

theorem demographic_balance_sample_std_pairAges :
    demographic_balance_sample_std pairAges = Real.sqrt 2 / 10 + 1 / 6 := by
  rw [demographic_balance_sample_std, if_neg (by decide : ¬pairAges.length < 2)]
  have hmin : (((pairAges.map UserProfile.gender).dedup.map
      (fun g => (pairAges.map UserProfile.gender).count g)).min?).getD 0 = 2 := by decide
  have huni : (pairAges.map UserProfile.university).dedup.length = 1 := by decide
  have hstat : (pairAges.map UserProfile.relationship_status).dedup.length = 1 := by decide
  have hlen : (pairAges.length : ℝ) = 2 := by norm_num [pairAges]
  simp only [sample_std_pairAges, hmin, huni, hstat, hlen]
  rw [if_neg (by norm_num)]
  have habs : |(0.5 : ℝ) - (2 : ℕ) / (2 : ℝ)| = 0.5 := by
    rw [show (0.5 : ℝ) - (2 : ℕ) / (2 : ℝ) = -(0.5 : ℝ) by norm_num, abs_neg,
      abs_of_nonneg (by norm_num)]
  rw [habs]
  have hsqrt3 : Real.sqrt 2 ≤ 3 := by
    have h9 : (3 : ℝ) = Real.sqrt 9 := by
      rw [show (9 : ℝ) = 3 ^ 2 by norm_num, Real.sqrt_sq (by norm_num : (0 : ℝ) ≤ 3)]
    rw [h9]
    exact Real.sqrt_le_sqrt (by norm_num)
  rw [min_eq_left (by linarith : Real.sqrt 2 / 3 ≤ 1),
    min_eq_left (by norm_num : ((1 : ℕ) : ℝ) / 3 ≤ 1)]
  ring

/-- **C8 counterexample.**  On a two-member group aged 20 and 22, numpy's
`np.std` (population, divide-by-`n`) gives 1, while the Bessel-corrected sample
standard deviation gives `√2`; the balance scores differ, refuting the claim
that the age sub-factor equals the sample standard deviation divided by 3. -/
theorem demographic_balance_age_counterexample :
    calculate_demographic_balance pairAges ≠ demographic_balance_sample_std pairAges := by
  rw [calculate_demographic_balance_pairAges, demographic_balance_sample_std_pairAges]
  intro h
  have hsqrt : Real.sqrt 2 = 1 := by linarith
  have := Real.sqrt_eq_one.1 hsqrt
  norm_num at this

/-- **C8 (amended).**  For every group of size at least 2, the age sub-factor of
the demographic-balance score equals the population (divide-by-`n`, numpy
default) standard deviation of the members' ages divided by 3.0, capped at 1.0,
and it enters the balance score with weight 0.3. -/
theorem calculate_demographic_balance_age_term (group : List UserProfile)
    (h2 : 2 ≤ group.length) :
    calculate_demographic_balance group
        = min (np_std (group.map (fun u => (u.age : ℝ))) / 3) 1 * 0.3
          + (1 - |(0.5 : ℝ) - ((((group.map UserProfile.gender).dedup.map
              (fun g => (group.map UserProfile.gender).count g)).min?.getD 0 : ℕ) : ℝ)
              / (group.length : ℝ)| * 2) * 0.3
          + min (((group.map UserProfile.university).dedup.length : ℝ) / 3) 1 * 0.2
          + (if 1 < (group.map UserProfile.relationship_status).dedup.length then
              1 - (((((group.map UserProfile.relationship_status).dedup.map
                  (fun s => (group.map UserProfile.relationship_status).count s)).max?.getD 0
                    : ℕ) : ℝ) / (group.length : ℝ)
                - 1 / (((group.map UserProfile.relationship_status).dedup.length : ℕ) : ℝ))
            else 0.5) * 0.2 ∧
      np_std (group.map (fun u => (u.age : ℝ)))
        = Real.sqrt ((((group.map (fun u => (u.age : ℝ))).map
            (fun x => (x - (group.map (fun u => (u.age : ℝ))).sum
              / ((group.map (fun u => (u.age : ℝ))).length : ℝ)) ^ 2)).sum)
          / ((group.map (fun u => (u.age : ℝ))).length : ℝ)) := by
  rw [calculate_demographic_balance, if_neg (by omega)]
  exact ⟨rfl, rfl⟩

theorem calculate_demographic_balance_age_term_witness :
    calculate_demographic_balance pairAges
        = min (np_std (pairAges.map (fun u => (u.age : ℝ))) / 3) 1 * 0.3
          + (1 - |(0.5 : ℝ) - ((((pairAges.map UserProfile.gender).dedup.map
              (fun g => (pairAges.map UserProfile.gender).count g)).min?.getD 0 : ℕ) : ℝ)
              / (pairAges.length : ℝ)| * 2) * 0.3
          + min (((pairAges.map UserProfile.university).dedup.length : ℝ) / 3) 1 * 0.2
          + (if 1 < (pairAges.map UserProfile.relationship_status).dedup.length then
              1 - (((((pairAges.map UserProfile.relationship_status).dedup.map
                  (fun s => (pairAges.map UserProfile.relationship_status).count s)).max?.getD 0
                    : ℕ) : ℝ) / (pairAges.length : ℝ)
                - 1 / (((pairAges.map UserProfile.relationship_status).dedup.length : ℕ) : ℝ))
            else 0.5) * 0.2 ∧
      np_std (pairAges.map (fun u => (u.age : ℝ)))
        = Real.sqrt ((((pairAges.map (fun u => (u.age : ℝ))).map
            (fun x => (x - (pairAges.map (fun u => (u.age : ℝ))).sum
              / ((pairAges.map (fun u => (u.age : ℝ))).length : ℝ)) ^ 2)).sum)
          / ((pairAges.map (fun u => (u.age : ℝ))).length : ℝ)) :=
  calculate_demographic_balance_age_term pairAges (by decide)

/-! ### C4: boundedness of the group score.  List-sum helpers first. -/

theorem list_sum_nonpos : ∀ {l : List ℝ}, (∀ x ∈ l, x ≤ 0) → l.sum ≤ 0
  | [], _ => by simp
  | x :: l, h => by
    rw [List.sum_cons]
    have hx := h x (List.mem_cons_self _ _)
    have hl := list_sum_nonpos (fun y hy => h y (List.mem_cons.2 (Or.inr hy)))
    linarith

theorem list_sum_map_div {α : Type} (f : α → ℝ) (c : ℝ) :
    ∀ l : List α, (l.map (fun x => f x / c)).sum = (l.map f).sum / c
  | [] => by simp
  | x :: l => by
    simp only [List.map_cons, List.sum_cons, list_sum_map_div f c l]
    rw [add_div]

theorem list_sum_map_sub {α : Type} (f g : α → ℝ) :
    ∀ l : List α, (l.map (fun x => f x - g x)).sum = (l.map f).sum - (l.map g).sum
  | [] => by simp
  | x :: l => by
    simp only [List.map_cons, List.sum_cons, list_sum_map_sub f g l]
    ring

theorem list_sum_map_neg {α : Type} (f : α → ℝ) :
    ∀ l : List α, (l.map (fun x => -f x)).sum = -(l.map f).sum
  | [] => by simp
  | x :: l => by
    simp only [List.map_cons, List.sum_cons, list_sum_map_neg f l]
    ring

theorem list_sum_map_mul_const (c : ℝ) :
    ∀ l : List ℝ, (l.map (fun p => p * c)).sum = l.sum * c
  | [] => by simp
  | x :: l => by
    simp only [List.map_cons, List.sum_cons, list_sum_map_mul_const c l]
    ring

theorem list_sum_map_const {α : Type} (c : ℝ) :
    ∀ l : List α, (l.map (fun _ => c)).sum = l.length * c
  | [] => by simp
  | x :: l => by
    simp only [List.map_cons, List.sum_cons, list_sum_map_const c l, List.length_cons]
    push_cast
    ring

/-- Gibbs' inequality over a list of probabilities: the Shannon entropy (in
nats) of a finite distribution is at most the logarithm of the number of
outcomes. -/
theorem neg_sum_mul_log_le_log_length (ps : List ℝ)
    (hpos : ∀ p ∈ ps, 0 < p) (hsum : ps.sum = 1) :
    -((ps.map (fun p => p * Real.log p)).sum) ≤ Real.log (ps.length : ℝ) := by
  have hne : ps ≠ [] := by
    rintro rfl
    norm_num at hsum
  have hk : (0 : ℝ) < (ps.length : ℝ) := by
    have : 0 < ps.length := List.length_pos.2 hne
    exact_mod_cast this
  have key : ∀ p ∈ ps, -(p * Real.log p) - p * Real.log (ps.length : ℝ)
      ≤ 1 / (ps.length : ℝ) - p := by
    intro p hp
    have hp0 := hpos p hp
    have hpk : (0 : ℝ) < (p * (ps.length : ℝ))⁻¹ := by positivity
    have h1 : Real.log ((p * (ps.length : ℝ))⁻¹) ≤ (p * (ps.length : ℝ))⁻¹ - 1 :=
      Real.log_le_sub_one_of_pos hpk
    have h2 : Real.log ((p * (ps.length : ℝ))⁻¹)
        = -(Real.log p + Real.log (ps.length : ℝ)) := by
      rw [Real.log_inv, Real.log_mul (ne_of_gt hp0) (ne_of_gt hk)]
    have h3 : p * Real.log ((p * (ps.length : ℝ))⁻¹)
        ≤ p * ((p * (ps.length : ℝ))⁻¹ - 1) := mul_le_mul_of_nonneg_left h1 hp0.le
    have h4 : p * ((p * (ps.length : ℝ))⁻¹ - 1) = 1 / (ps.length : ℝ) - p := by
      field_simp
      ring
    have h5 : p * Real.log ((p * (ps.length : ℝ))⁻¹)
        = -(p * Real.log p) - p * Real.log (ps.length : ℝ) := by
      rw [h2]
      ring
    linarith
  have hsum_le := List.sum_le_sum key
  have hL : (ps.map (fun p => -(p * Real.log p) - p * Real.log (ps.length : ℝ))).sum
      = -((ps.map (fun p => p * Real.log p)).sum) - Real.log (ps.length : ℝ) := by
    rw [list_sum_map_sub (fun p => -(p * Real.log p)) (fun p => p * Real.log (ps.length : ℝ))]
    rw [list_sum_map_neg (fun p => p * Real.log p)]
    rw [list_sum_map_mul_const (Real.log (ps.length : ℝ)) ps, hsum]
    ring
  have hR : (ps.map (fun p => 1 / (ps.length : ℝ) - p)).sum = 0 := by
    rw [list_sum_map_sub (fun _ => 1 / (ps.length : ℝ)) (fun p => p)]
    rw [list_sum_map_const (1 / (ps.length : ℝ))]
    have : (ps.map (fun p => p)).sum = 1 := by
      rw [List.map_id']
      exact hsum
    rw [this]
    field_simp
  rw [hL, hR] at hsum_le
  linarith

/-- Gibbs' inequality in base-2 form, as the code's entropy uses `log2`. -/
theorem neg_sum_mul_logb_le_logb_length (ps : List ℝ)
    (hpos : ∀ p ∈ ps, 0 < p) (hsum : ps.sum = 1) :
    -((ps.map (fun p => p * Real.logb 2 p)).sum) ≤ Real.logb 2 (ps.length : ℝ) := by
  have hlog2 : (0 : ℝ) < Real.log 2 := Real.log_pos (by norm_num)
  have hmap : (ps.map (fun p => p * Real.logb 2 p))
      = ps.map (fun p => (p * Real.log p) / Real.log 2) := by
    refine List.map_congr_left (fun p _ => ?_)
    rw [Real.logb]
    ring
  rw [hmap, list_sum_map_div (fun p => p * Real.log p) (Real.log 2), Real.logb, ← neg_div]
  exact (div_le_div_iff_of_pos_right hlog2).2 (neg_sum_mul_log_le_log_length ps hpos hsum)

/-- The interest-diversity sub-score always lies in `[0, 1]`. -/
theorem calculate_interest_diversity_bounds (group : List UserProfile) :
    0 ≤ calculate_interest_diversity group ∧ calculate_interest_diversity group ≤ 1 := by
  by_cases hempty : all_interests group = []
  · rw [calculate_interest_diversity, if_pos hempty]
    norm_num
  · by_cases hk1 : 1 < (all_interests group).dedup.length
    · -- at least two distinct tags: normalized entropy, bounded via Gibbs
      have hN : (0 : ℝ) < ((all_interests group).length : ℝ) := by
        have : 0 < (all_interests group).length := List.length_pos.2 hempty
        exact_mod_cast this
      have hterm : (all_interests group).dedup.map (fun t =>
            if 0 < (((all_interests group).count t : ℝ) / ((all_interests group).length : ℝ))
            then (((all_interests group).count t : ℝ) / ((all_interests group).length : ℝ))
              * Real.logb 2 (((all_interests group).count t : ℝ)
                / ((all_interests group).length : ℝ))
            else 0)
          = (all_interests group).dedup.map (fun t =>
            (((all_interests group).count t : ℝ) / ((all_interests group).length : ℝ))
              * Real.logb 2 (((all_interests group).count t : ℝ)
                / ((all_interests group).length : ℝ))) := by
        refine List.map_congr_left (fun t ht => ?_)
        have hc : 0 < (all_interests group).count t :=
          List.count_pos_iff.2 (List.mem_dedup.1 ht)
        rw [if_pos (div_pos (by exact_mod_cast hc) hN)]
      have hps : ((all_interests group).dedup.map (fun t =>
            (((all_interests group).count t : ℝ) / ((all_interests group).length : ℝ)))).sum
          = 1 := by
        rw [list_sum_map_div (fun t => (((all_interests group).count t : ℝ)))
          ((all_interests group).length : ℝ)]
        have hcast : ((all_interests group).dedup.map
              (fun t => (((all_interests group).count t : ℝ)))).sum
            = (((all_interests group).dedup.map
                (fun t => (all_interests group).count t)).sum : ℝ) := by
          rw [Nat.cast_list_sum, List.map_map]
          rfl
        rw [hcast, List.sum_map_count_dedup_eq_length]
        exact div_self (ne_of_gt hN)
      have hppos : ∀ p ∈ (all_interests group).dedup.map (fun t =>
            (((all_interests group).count t : ℝ) / ((all_interests group).length : ℝ))), 0 < p := by
        intro p hp
        obtain ⟨t, ht, rfl⟩ := List.mem_map.1 hp
        have hc : 0 < (all_interests group).count t :=
          List.count_pos_iff.2 (List.mem_dedup.1 ht)
        exact div_pos (by exact_mod_cast hc) hN
      have hentropy_nonneg :
          0 ≤ -(((all_interests group).dedup.map (fun t =>
            (((all_interests group).count t : ℝ) / ((all_interests group).length : ℝ))
              * Real.logb 2 (((all_interests group).count t : ℝ)
                / ((all_interests group).length : ℝ)))).sum) := by
        rw [neg_nonneg]
        refine list_sum_nonpos ?_
        intro x hx
        obtain ⟨t, ht, rfl⟩ := List.mem_map.1 hx
        have hc : 0 < (all_interests group).count t :=
          List.count_pos_iff.2 (List.mem_dedup.1 ht)
        have hple : (((all_interests group).count t : ℝ) / ((all_interests group).length : ℝ)) ≤ 1 := by
          rw [div_le_one hN]
          exact_mod_cast List.count_le_length t (all_interests group)
        have hppos' : (0:ℝ) < (((all_interests group).count t : ℝ)
            / ((all_interests group).length : ℝ)) := div_pos (by exact_mod_cast hc) hN
        have hlogle : Real.logb 2 (((all_interests group).count t : ℝ)
            / ((all_interests group).length : ℝ)) ≤ 0 :=
          Real.logb_nonpos (by norm_num) hppos'.le hple
        exact mul_nonpos_iff.2 (Or.inl ⟨hppos'.le, hlogle⟩)
      have hgibbs :
          -(((all_interests group).dedup.map (fun t =>
            (((all_interests group).count t : ℝ) / ((all_interests group).length : ℝ))
              * Real.logb 2 (((all_interests group).count t : ℝ)
                / ((all_interests group).length : ℝ)))).sum)
          ≤ Real.logb 2 ((all_interests group).dedup.length : ℝ) := by
        have hb := neg_sum_mul_logb_le_logb_length
          ((all_interests group).dedup.map (fun t =>
            (((all_interests group).count t : ℝ) / ((all_interests group).length : ℝ))))
          hppos hps
        rw [List.map_map, List.length_map] at hb
        exact hb
      have hlogpos : 0 < Real.logb 2 (((all_interests group).dedup.length : ℕ) : ℝ) :=
        Real.logb_pos (by norm_num) (by exact_mod_cast hk1)
      rw [calculate_interest_diversity]
      simp only [if_neg hempty, if_pos hk1, hterm, if_pos hlogpos]
      constructor
      · exact div_nonneg hentropy_nonneg hlogpos.le
      · rw [div_le_one hlogpos]
        exact hgibbs
    · -- a single distinct tag: diversity is 0
      have hne : (all_interests group).dedup ≠ [] := by
        intro h
        exact hempty ((List.dedup_eq_nil _).1 h)
      have hk : (all_interests group).dedup.length = 1 := by
        have : 0 < (all_interests group).dedup.length := List.length_pos.2 hne
        omega
      obtain ⟨t, ht⟩ := List.length_eq_one.1 hk
      have hall : ∀ x ∈ all_interests group, x = t := by
        intro x hx
        have : x ∈ (all_interests group).dedup := List.mem_dedup.2 hx
        rw [ht] at this
        exact List.mem_singleton.1 this
      rw [calculate_interest_diversity_of_all_eq t hall]
      norm_num

theorem shared_interest_pairs_le :
    ∀ g : List UserProfile, 2 * shared_interest_pairs g ≤ g.length * (g.length - 1)
  | [] => by simp [shared_interest_pairs]
  | u :: rest => by
    rw [shared_interest_pairs]
    have hf : (rest.filter (fun v => 1 ≤ shared_interests u v)).length ≤ rest.length :=
      List.length_filter_le _ _
    have ih := shared_interest_pairs_le rest
    simp only [List.length_cons]
    rcases Nat.eq_zero_or_pos rest.length with h0 | hpos
    · rw [h0] at hf ih ⊢
      omega
    · obtain ⟨k, hk⟩ : ∃ k, rest.length = k + 1 := ⟨rest.length - 1, by omega⟩
      rw [hk] at hf ih ⊢
      have h1 : k + 1 - 1 = k := by omega
      have h2 : k + 1 + 1 - 1 = k + 1 := by omega
      rw [h1] at ih
      rw [h2]
      nlinarith

/-- The conversation-potential sub-score always lies in `[0, 1]`. -/
theorem calculate_conversation_potential_bounds (group : List UserProfile) :
    0 ≤ calculate_conversation_potential group ∧ calculate_conversation_potential group ≤ 1 := by
  rw [calculate_conversation_potential]
  by_cases htp : (0 : ℝ) < (group.length : ℝ) * ((group.length : ℝ) - 1) / 2
  · have h2 : 2 ≤ group.length := by
      by_contra hlt
      rcases (by omega : group.length = 0 ∨ group.length = 1) with h0 | h1
      · rw [h0] at htp
        norm_num at htp
      · rw [h1] at htp
        norm_num at htp
    have hsp : (shared_interest_pairs group : ℝ)
        ≤ (group.length : ℝ) * ((group.length : ℝ) - 1) / 2 := by
      have hnat := shared_interest_pairs_le group
      have hcast : (2 : ℝ) * (shared_interest_pairs group : ℝ)
          ≤ (group.length : ℝ) * ((group.length : ℝ) - 1) := by
        calc (2 : ℝ) * (shared_interest_pairs group : ℝ)
            = ((2 * shared_interest_pairs group : ℕ) : ℝ) := by push_cast; ring
          _ ≤ ((group.length * (group.length - 1) : ℕ) : ℝ) := by exact_mod_cast hnat
          _ = (group.length : ℝ) * ((group.length : ℝ) - 1) := by
              push_cast [Nat.cast_sub (by omega : 1 ≤ group.length)]
              ring
      linarith
    have hrat0 : (0 : ℝ) ≤ (shared_interest_pairs group : ℝ)
        / ((group.length : ℝ) * ((group.length : ℝ) - 1) / 2) :=
      div_nonneg (by positivity) htp.le
    have hrat1 : (shared_interest_pairs group : ℝ)
        / ((group.length : ℝ) * ((group.length : ℝ) - 1) / 2) ≤ 1 :=
      (div_le_one htp).2 hsp
    by_cases hc : (shared_interest_pairs group : ℝ)
        / ((group.length : ℝ) * ((group.length : ℝ) - 1) / 2) ≤ 0.7
    · simp only [if_pos htp, if_pos hc]
      constructor
      · positivity
      · rw [div_le_one (by norm_num : (0 : ℝ) < 0.7)]
        exact hc
    · simp only [if_pos htp, if_neg hc]
      push_neg at hc
      have h03 : (1 : ℝ) - 0.7 = 0.3 := by norm_num
      rw [h03, div_mul_cancel₀ _ (by norm_num : (0.3 : ℝ) ≠ 0)]
      constructor
      · linarith
      · linarith
  · simp only [if_neg htp, if_pos (by norm_num : (0 : ℝ) ≤ 0.7)]
    norm_num

theorem np_std_nonneg (xs : List ℝ) : 0 ≤ np_std xs := Real.sqrt_nonneg _

theorem min_count_le_length (l : List String) :
    ((l.dedup.map (fun g => l.count g)).min?).getD 0 ≤ l.length := by
  rcases hm : (l.dedup.map (fun g => l.count g)).min? with _ | m
  · simp
  · have hmem : m ∈ l.dedup.map (fun g => l.count g) :=
      List.min?_mem (fun a b => by omega) hm
    obtain ⟨g, _, rfl⟩ := List.mem_map.1 hmem
    simpa using List.count_le_length g l

theorem max_count_le_length (l : List String) :
    ((l.dedup.map (fun s => l.count s)).max?).getD 0 ≤ l.length := by
  rcases hm : (l.dedup.map (fun s => l.count s)).max? with _ | m
  · simp
  · have hmem : m ∈ l.dedup.map (fun s => l.count s) :=
      List.max?_mem (fun a b => by omega) hm
    obtain ⟨s, _, rfl⟩ := List.mem_map.1 hmem
    simpa using List.count_le_length s l

theorem length_le_card_mul_max (l : List String) :
    l.length ≤ l.dedup.length * (((l.dedup.map (fun s => l.count s)).max?).getD 0) := by
  rcases hm : (l.dedup.map (fun s => l.count s)).max? with _ | m
  · have hmap : l.dedup.map (fun s => l.count s) = [] := List.max?_eq_none_iff.1 hm
    have hd : l.dedup = [] := List.map_eq_nil_iff.1 hmap
    have hl : l = [] := (List.dedup_eq_nil _).1 hd
    simp [hl]
  · have hall : ∀ b ∈ l.dedup.map (fun s => l.count s), b ≤ m :=
      (List.max?_le_iff (fun a b c => by omega) hm).1 (Nat.le_refl m)
    have hsum := List.sum_le_card_nsmul (l.dedup.map (fun s => l.count s)) m hall
    rw [List.sum_map_count_dedup_eq_length] at hsum
    simpa [smul_eq_mul] using hsum

/-- `calculate_demographic_balance` with its four sub-factors spelled out, for
groups of size at least 2. -/
theorem demographic_balance_expand (group : List UserProfile) (h2 : ¬group.length < 2) :
    calculate_demographic_balance group
      = min (np_std (group.map (fun u => (u.age : ℝ))) / 3) 1 * 0.3
        + (1 - |(0.5 : ℝ) - ((((group.map UserProfile.gender).dedup.map
            (fun g => (group.map UserProfile.gender).count g)).min?.getD 0 : ℕ) : ℝ)
            / (group.length : ℝ)| * 2) * 0.3
        + min (((group.map UserProfile.university).dedup.length : ℝ) / 3) 1 * 0.2
        + (if 1 < (group.map UserProfile.relationship_status).dedup.length then
            1 - (((((group.map UserProfile.relationship_status).dedup.map
                (fun s => (group.map UserProfile.relationship_status).count s)).max?.getD 0
                  : ℕ) : ℝ) / (group.length : ℝ)
              - 1 / (((group.map UserProfile.relationship_status).dedup.length : ℕ) : ℝ))
          else 0.5) * 0.2 := by
  rw [calculate_demographic_balance, if_neg h2]

/-- The demographic-balance sub-score always lies in `[0, 1]`. -/
theorem calculate_demographic_balance_bounds (group : List UserProfile) :
    0 ≤ calculate_demographic_balance group ∧ calculate_demographic_balance group ≤ 1 := by
  by_cases hlt : group.length < 2
  · rw [calculate_demographic_balance, if_pos hlt]
    norm_num
  · rw [demographic_balance_expand group hlt]
    have hn : (0 : ℝ) < (group.length : ℝ) := by
      have : 0 < group.length := by omega
      exact_mod_cast this
    -- age factor
    have hA0 : 0 ≤ min (np_std (group.map (fun u => (u.age : ℝ))) / 3) 1 :=
      le_min (div_nonneg (np_std_nonneg _) (by norm_num)) zero_le_one
    have hA1 : min (np_std (group.map (fun u => (u.age : ℝ))) / 3) 1 ≤ 1 := min_le_right _ _
    -- gender factor
    have hminle : ((((group.map UserProfile.gender).dedup.map
        (fun g => (group.map UserProfile.gender).count g)).min?.getD 0 : ℕ) : ℝ)
        ≤ (group.length : ℝ) := by
      have h := min_count_le_length (group.map UserProfile.gender)
      rw [List.length_map] at h
      exact_mod_cast h
    have hminnn : (0 : ℝ) ≤ ((((group.map UserProfile.gender).dedup.map
        (fun g => (group.map UserProfile.gender).count g)).min?.getD 0 : ℕ) : ℝ) := by
      positivity
    have hratio : (0 : ℝ) ≤ ((((group.map UserProfile.gender).dedup.map
          (fun g => (group.map UserProfile.gender).count g)).min?.getD 0 : ℕ) : ℝ)
          / (group.length : ℝ) ∧
        ((((group.map UserProfile.gender).dedup.map
          (fun g => (group.map UserProfile.gender).count g)).min?.getD 0 : ℕ) : ℝ)
          / (group.length : ℝ) ≤ 1 :=
      ⟨div_nonneg hminnn hn.le, (div_le_one hn).2 hminle⟩
    have habs : |(0.5 : ℝ) - ((((group.map UserProfile.gender).dedup.map
        (fun g => (group.map UserProfile.gender).count g)).min?.getD 0 : ℕ) : ℝ)
        / (group.length : ℝ)| ≤ 0.5 := by
      rw [abs_le]
      constructor
      · linarith [hratio.2]
      · linarith [hratio.1]
    have hB0 : 0 ≤ 1 - |(0.5 : ℝ) - ((((group.map UserProfile.gender).dedup.map
        (fun g => (group.map UserProfile.gender).count g)).min?.getD 0 : ℕ) : ℝ)
        / (group.length : ℝ)| * 2 := by linarith
    have hB1 : 1 - |(0.5 : ℝ) - ((((group.map UserProfile.gender).dedup.map
        (fun g => (group.map UserProfile.gender).count g)).min?.getD 0 : ℕ) : ℝ)
        / (group.length : ℝ)| * 2 ≤ 1 := by
      have := abs_nonneg ((0.5 : ℝ) - ((((group.map UserProfile.gender).dedup.map
        (fun g => (group.map UserProfile.gender).count g)).min?.getD 0 : ℕ) : ℝ)
        / (group.length : ℝ))
      linarith
    -- university factor
    have hC0 : 0 ≤ min (((group.map UserProfile.university).dedup.length : ℝ) / 3) 1 :=
      le_min (by positivity) zero_le_one
    have hC1 : min (((group.map UserProfile.university).dedup.length : ℝ) / 3) 1 ≤ 1 :=
      min_le_right _ _
    -- relationship-status factor
    have hD : 0 ≤ (if 1 < (group.map UserProfile.relationship_status).dedup.length then
          1 - (((((group.map UserProfile.relationship_status).dedup.map
              (fun s => (group.map UserProfile.relationship_status).count s)).max?.getD 0
                : ℕ) : ℝ) / (group.length : ℝ)
            - 1 / (((group.map UserProfile.relationship_status).dedup.length : ℕ) : ℝ))
        else 0.5) ∧
        (if 1 < (group.map UserProfile.relationship_status).dedup.length then
          1 - (((((group.map UserProfile.relationship_status).dedup.map
              (fun s => (group.map UserProfile.relationship_status).count s)).max?.getD 0
                : ℕ) : ℝ) / (group.length : ℝ)
            - 1 / (((group.map UserProfile.relationship_status).dedup.length : ℕ) : ℝ))
        else 0.5) ≤ 1 := by
      by_cases hk : 1 < (group.map UserProfile.relationship_status).dedup.length
      · rw [if_pos hk]
        have hkpos : (0 : ℝ)
            < (((group.map UserProfile.relationship_status).dedup.length : ℕ) : ℝ) := by
          have : 0 < (group.map UserProfile.relationship_status).dedup.length := by omega
          exact_mod_cast this
        have hmaxle : ((((group.map UserProfile.relationship_status).dedup.map
            (fun s => (group.map UserProfile.relationship_status).count s)).max?.getD 0
              : ℕ) : ℝ) ≤ (group.length : ℝ) := by
          have h := max_count_le_length (group.map UserProfile.relationship_status)
          rw [List.length_map] at h
          exact_mod_cast h
        have hmaxfrac : ((((group.map UserProfile.relationship_status).dedup.map
            (fun s => (group.map UserProfile.relationship_status).count s)).max?.getD 0
              : ℕ) : ℝ) / (group.length : ℝ) ≤ 1 := (div_le_one hn).2 hmaxle
        have hlower : 1 / (((group.map UserProfile.relationship_status).dedup.length : ℕ) : ℝ)
            ≤ ((((group.map UserProfile.relationship_status).dedup.map
              (fun s => (group.map UserProfile.relationship_status).count s)).max?.getD 0
                : ℕ) : ℝ) / (group.length : ℝ) := by
          rw [div_le_div_iff₀ hkpos hn]
          have h := length_le_card_mul_max (group.map UserProfile.relationship_status)
          rw [List.length_map] at h
          have := (by exact_mod_cast h : (group.length : ℝ)
            ≤ (((group.map UserProfile.relationship_status).dedup.length : ℕ) : ℝ)
              * ((((group.map UserProfile.relationship_status).dedup.map
                (fun s => (group.map UserProfile.relationship_status).count s)).max?.getD 0
                  : ℕ) : ℝ))
          linarith
        have hinv : (0 : ℝ)
            < 1 / (((group.map UserProfile.relationship_status).dedup.length : ℕ) : ℝ) := by
          positivity
        constructor
        · linarith
        · linarith
      · rw [if_neg hk]
        norm_num
    constructor
    · linarith [hD.1]
    · linarith [hD.2]

/-- On any non-empty group the social-compatibility sub-score is defined and
lies in `[0.75, 1]`. -/
theorem calculate_social_compatibility_bounds (group : List UserProfile) (hne : group ≠ []) :
    ∃ s, calculate_social_compatibility group = some s ∧ (0.75 ≤ s ∧ s ≤ 1) := by
  have hlen : ¬group.length = 0 := by
    simpa [List.length_eq_zero] using hne
  rw [calculate_social_compatibility, if_neg hlen]
  refine ⟨_, rfl, ?_⟩
  by_cases h1 : (0.3 : ℝ) ≤ ((group.filter (fun u => u.alcohol)).length : ℝ)
        / (group.length : ℝ)
      ∧ ((group.filter (fun u => u.alcohol)).length : ℝ) / (group.length : ℝ) ≤ 0.7 <;>
    by_cases h2 : (0.2 : ℝ) ≤
          ((group.filter (fun u => u.relationship_status = "single")).length : ℝ)
            / (group.length : ℝ)
        ∧ ((group.filter (fun u => u.relationship_status = "single")).length : ℝ)
            / (group.length : ℝ) ≤ 0.8 <;>
    simp only [h1, h2, if_true, if_false] <;>
    norm_num

theorem score_formula_bounds {d c b s : ℝ}
    (hd : 0 ≤ d ∧ d ≤ 1) (hc : 0 ≤ c ∧ c ≤ 1) (hb : 0 ≤ b ∧ b ≤ 1)
    (hs : 0.75 ≤ s ∧ s ≤ 1) :
    0 ≤ (d * 0.6 + c * 0.4) * 0.4 + b * 0.3 + s * 0.3 ∧
    (d * 0.6 + c * 0.4) * 0.4 + b * 0.3 + s * 0.3 ≤ 1 := by
  obtain ⟨hd0, hd1⟩ := hd
  obtain ⟨hc0, hc1⟩ := hc
  obtain ⟨hb0, hb1⟩ := hb
  obtain ⟨hs0, hs1⟩ := hs
  constructor <;> linarith

/-- On any non-empty group `calculate_group_score` is defined and lies in `[0, 1]`. -/
theorem calculate_group_score_in_unit (group : List UserProfile) (hne : group ≠ []) :
    ∃ s, calculate_group_score group = some s ∧ 0 ≤ s ∧ s ≤ 1 := by
  obtain ⟨soc, hsoc, hsb⟩ := calculate_social_compatibility_bounds group hne
  rw [calculate_group_score, hsoc, Option.map_some']
  exact ⟨_, rfl,
    score_formula_bounds (calculate_interest_diversity_bounds group)
      (calculate_conversation_potential_bounds group)
      (calculate_demographic_balance_bounds group) hsb⟩

theorem apply_fairness_boost_zero_bounds (group_history : GroupHistory) (u : UserProfile) :
    0 ≤ apply_fairness_boost group_history u 0 ∧
    apply_fairness_boost group_history u 0 ≤ 0.15 := by
  rw [apply_fairness_boost]
  split_ifs <;> norm_num

theorem boost_sum_bounds (group_history : GroupHistory) (group : List UserProfile) :
    0 ≤ (group.map (fun u => apply_fairness_boost group_history u 0 * 0.1)).sum ∧
    (group.map (fun u => apply_fairness_boost group_history u 0 * 0.1)).sum
      ≤ (group.length : ℝ) * 0.015 := by
  constructor
  · refine List.sum_nonneg ?_
    intro x hx
    obtain ⟨u, _, rfl⟩ := List.mem_map.1 hx
    have h := (apply_fairness_boost_zero_bounds group_history u).1
    nlinarith
  · have hall : ∀ x ∈ group.map (fun u => apply_fairness_boost group_history u 0 * 0.1),
        x ≤ 0.015 := by
      intro x hx
      obtain ⟨u, _, rfl⟩ := List.mem_map.1 hx
      have h := (apply_fairness_boost_zero_bounds group_history u).2
      nlinarith
    have h := List.sum_le_card_nsmul
      (group.map (fun u => apply_fairness_boost group_history u 0 * 0.1)) 0.015 hall
    rw [List.length_map, nsmul_eq_mul] at h
    exact h

/-- **C4 counterexample.**  On the empty group `calculate_group_score` does not
return a value at all: the social-compatibility call inside it divides by
zero. -/
theorem calculate_group_score_empty_counterexample :
    calculate_group_score [] = none := rfl

/-- **C4 (amended).**  For every non-empty group, `calculate_group_score`
returns a value in `[0, 1]` (on the empty group it fails by division by zero),
and for every size-6 candidate group the fairness-adjusted score — base score
plus each member's boost times 0.1 — lies in `[0, 1.15]`. -/
theorem calculate_group_score_bounded :
    (∀ group : List UserProfile, group ≠ [] →
      ∃ s, calculate_group_score group = some s ∧ 0 ≤ s ∧ s ≤ 1) ∧
    (∀ (group : List UserProfile) (group_history : GroupHistory), group.length = 6 →
      ∃ s, calculate_group_score group = some s ∧
        0 ≤ fairness_adjusted_score group_history group s ∧
        fairness_adjusted_score group_history group s ≤ 1.15) := by
  constructor
  · exact calculate_group_score_in_unit
  · intro group group_history h6
    have hne : group ≠ [] := by
      intro h
      rw [h] at h6
      simp at h6
    obtain ⟨s, hs, hs0, hs1⟩ := calculate_group_score_in_unit group hne
    have hadj : fairness_adjusted_score group_history group s
        = s + (group.map (fun u => apply_fairness_boost group_history u 0 * 0.1)).sum := by
      rw [fairness_adjusted_score, foldl_add_eq_add_sum]
    obtain ⟨hb0, hb1⟩ := boost_sum_bounds group_history group
    rw [h6] at hb1
    norm_num at hb1
    refine ⟨s, hs, ?_, ?_⟩
    · rw [hadj]
      linarith
    · rw [hadj]
      linarith

theorem calculate_group_score_bounded_witness :
    (∃ s, calculate_group_score [mkUser "hana" "f" "single" 21 false ["m"]] = some s ∧
      0 ≤ s ∧ s ≤ 1) ∧
    (∃ s, calculate_group_score sixSameKey = some s ∧
      0 ≤ fairness_adjusted_score hist0 sixSameKey s ∧
      fairness_adjusted_score hist0 sixSameKey s ≤ 1.15) :=
  ⟨calculate_group_score_bounded.1 _ (by decide),
   calculate_group_score_bounded.2 sixSameKey hist0 (by decide)⟩

theorem form_dining_groups_constraint_homogeneous_witness :
    get_constraint_key (mkUser "u1" "f" "single" 20 false [])
      = get_constraint_key (mkUser "u2" "f" "single" 20 false []) := by
  obtain ⟨s, hs, -, -⟩ := calculate_group_score_in_unit sixSameKey (by decide)
  have h1 : filter_compatible_users sixSameKey
      = [(("none", "500-800", "Mumbai", ["en"]), sixSameKey)] := by decide
  have h2 : candidate_groups sampler0 6 sixSameKey = [sixSameKey] := by decide
  have h4 : score_candidates hist0 [sixSameKey]
      = some [(sixSameKey, fairness_adjusted_score hist0 sixSameKey s)] := by
    rw [score_candidates, hs, score_candidates]
  have h3 : score_buckets hist0 sampler0 6
        [(("none", "500-800", "Mumbai", ["en"]), sixSameKey)]
      = some [(sixSameKey, fairness_adjusted_score hist0 sixSameKey s)] := by
    rw [score_buckets, if_neg (by decide : ¬sixSameKey.length < 6), h2, h4, score_buckets]
    rfl
  have h5 : select_non_overlapping_groups
        [(sixSameKey, fairness_adjusted_score hist0 sixSameKey s)] 6 = [sixSameKey] := by
    rw [select_non_overlapping_groups]
    rw [show List.insertionSort scoreGE
        [(sixSameKey, fairness_adjusted_score hist0 sixSameKey s)]
        = [(sixSameKey, fairness_adjusted_score hist0 sixSameKey s)] from rfl]
    rw [selectGreedy, if_pos (by decide : group_user_ids sixSameKey ∩ ∅ = ∅)]
    rfl
  have hform : form_dining_groups hist0 sampler0 sixSameKey 6 = some [sixSameKey] := by
    rw [form_dining_groups, h1, h3, Option.map_some', h5]
  exact form_dining_groups_constraint_homogeneous hist0 sampler0 sixSameKey 6 [sixSameKey]
    (fun us i u hu => absurd hu (List.not_mem_nil u)) hform sixSameKey
    (List.mem_singleton.2 rfl)
    (mkUser "u1" "f" "single" 20 false []) (by decide)
    (mkUser "u2" "f" "single" 20 false []) (by decide)

end GroupDining
